import Mathlib

/-!
Shallow embedding of `src/bacon_number.py` (class `BaconNumberCalculator`).

Python dicts are modelled as insertion-ordered association lists: a lookup
returns the first matching key, and a fresh key/value pair is appended at the
end, which is exactly the iteration order `dict.items()` exposes.  The three
methods `generateAdjList`, `calcBaconNumber` and `calcAvgNumber` are translated
line by line below; the BFS loop receives an explicit fuel argument (bounded by
the total size of the adjacency structure) because Lean requires termination
evidence, and the sufficiency of that fuel is proved, not assumed.
-/

namespace Bacon

/-- Adjacency of one actor: a Python dict mapping co-actor to one witnessing
movie, as an insertion-ordered association list. -/
abbrev Adj := List (String × String)

/-- The whole adjacency structure `self.adjList`: a Python dict mapping actor
to that actor's adjacency dict. -/
abbrev Graph := List (String × Adj)

/-- Lookup in a Python-style dict: first entry whose key matches. -/
def lookupD {β : Type} : List (String × β) → String → Option β
  | [], _ => none
  | (k, v) :: rest, x => if k = x then some v else lookupD rest x

/-- Membership test `x in d` on a Python dict. -/
def memD {β : Type} (d : List (String × β)) (x : String) : Prop :=
  (lookupD d x).isSome

instance {β : Type} (d : List (String × β)) (x : String) : Decidable (memD d x) := by
  unfold memD; infer_instance

/-- Line 106-107 and 112-113 of the source: `if a not in self.adjList:
self.adjList[a] = \x7b\x7d` — register an actor with an empty adjacency dict if it
is not yet a key. -/
def registerActor (g : Graph) (a : String) : Graph :=
  if memD g a then g else g ++ [(a, [])]

/-- Line 109-110 and 115-116 of the source: `if b not in self.adjList[a]:
self.adjList[a][b] = movie` — record movie `m` as the witness for the directed
entry `a → b` unless one is already present.  (In the source `a` is always a
key at this point; if it is not, nothing happens, matching the fact that the
situation never arises.) -/
def addEdgeEntry (g : Graph) (a b m : String) : Graph :=
  match lookupD g a with
  | none => g
  | some adj =>
      if memD adj b then g
      else g.map (fun p => if p.1 = a then (p.1, p.2 ++ [(b, m)]) else p)

/-- Inner loop of `generateAdjList` (`for j in range(i + 1, len(actors))`),
with `ai = actors[i]` and the argument list standing for `actors[i+1:]`. -/
def innerLoop (g : Graph) (m ai : String) : List String → Graph
  | [] => g
  | aj :: rest =>
      innerLoop (addEdgeEntry (registerActor (addEdgeEntry g ai aj m) aj) aj ai m) m ai rest

/-- Outer loop of `generateAdjList` (`for i in range(len(actors))`), the
argument list standing for `actors[i:]`. -/
def outerLoop (g : Graph) (m : String) : List String → Graph
  | [] => g
  | ai :: rest => outerLoop (innerLoop (registerActor g ai) m ai rest) m rest

/-- Splitting on the `/` delimiter, the semantics of Python
`str.split("/")`: every occurrence of the delimiter separates two fields,
empty fields included, and the empty text yields one empty field.  Spelled
out character by character (structural recursion) so that concrete runs
reduce inside the kernel. -/
def splitOnSlash : List Char → List (List Char)
  | [] => [[]]
  | c :: rest =>
      if c = '/' then [] :: splitOnSlash rest
      else
        match splitOnSlash rest with
        | [] => [[c]]
        | fld :: flds => (c :: fld) :: flds

/-- Whitespace stripping at both ends, the semantics of Python
`str.strip()` on the whitespace characters the dataset can contain. -/
def trimChars (cs : List Char) : List Char :=
  ((cs.dropWhile Char.isWhitespace).reverse.dropWhile Char.isWhitespace).reverse

/-- Line 98-103 of the source: strip the line, split on `/`, first field is
the movie, the remaining fields are the actors.  The split never returns
`[]`, so the first match arm is dead code kept only for totality. -/
def parseLine (line : String) : String × List String :=
  match (splitOnSlash (trimChars line.data)).map (fun cs => String.mk cs) with
  | [] => ("", [])
  | movie :: actors => (movie, actors)

/-- Body of the `for line in file` loop of `generateAdjList`. -/
def processLine (g : Graph) (line : String) : Graph :=
  outerLoop g (parseLine line).1 (parseLine line).2

/-- The whole `generateAdjList` loop over the decoded lines of the file,
starting from the current adjacency structure `g`. -/
def generateAdjList (g : Graph) (lines : List String) : Graph :=
  lines.foldl processLine g

/-- One event produced while iterating over the input file. -/
inductive ReadEvent
  | line (s : String)
  | failure (msg : String)

/-- Modelled from the spec: the Python file object (`open`, ISO-8859-1
decoding, line iteration) is outside the source; reading is modelled as a
stream of events, each either a decoded line or a raised read/decode error
carrying its message.  The `try`/`except Exception as e` wrapper of
`generateAdjList` is translated faithfully: on a failure event the loop stops,
the graph keeps the state built so far, and the handler's printed message
`f"An error occurred: \x7be\x7d"` is returned as the report instead of an exception
escaping. -/
def generateAdjListRun (g : Graph) : List ReadEvent → Graph × Option String
  | [] => (g, none)
  | ReadEvent.line s :: rest => generateAdjListRun (processLine g s) rest
  | ReadEvent.failure msg :: _ => (g, some ("An error occurred: " ++ msg))

/-- Adjacency dict of an actor, empty for a non-key (the source only ever
indexes `self.adjList[actor]` for actors that are keys). -/
def adjOf (g : Graph) (a : String) : Adj :=
  (lookupD g a).getD []

/-- Backpointer map `prev` of the BFS: actor to (predecessor actor, movie),
with `(none, none)` marking the start actor. -/
abbrev PrevMap := List (String × (Option String × Option String))

/-- Line 224-231 of the source: iterate over `self.adjList[actor].items()`;
any co-actor neither visited nor in `prev` gets a backpointer `(actor, movie)`
and is appended to the queue. -/
def expand (visited : List String) (actor : String) :
    PrevMap → List String → Adj → PrevMap × List String
  | prev, queue, [] => (prev, queue)
  | prev, queue, (c, m) :: rest =>
      if c ∈ visited ∨ memD prev c then
        expand visited actor prev queue rest
      else
        expand visited actor (prev ++ [(c, (some actor, some m))]) (queue ++ [c]) rest

/-- Line 205-213 of the source: walk the backpointers from the end actor,
appending each actor and, when present, the movie leading to it.  The source
relies on the chain reaching the start actor; the fuel argument makes the
recursion total and is chosen large enough at the call site. -/
def buildPath (prev : PrevMap) : Nat → Option String → List String → List String
  | _, none, path => path
  | 0, some _, path => path
  | fuel + 1, some actor, path =>
      match lookupD prev actor with
      | none => path ++ [actor]
      | some (pa, pm) =>
          match pm with
          | none => buildPath prev fuel pa (path ++ [actor])
          | some mv => buildPath prev fuel pa (path ++ [actor, mv])

/-- The `while queue:` loop of `calcBaconNumber` (line 198-234).  The fuel
decreases once per dequeue; running out returns the same not-found value as an
exhausted queue, and the fuel supplied by `calcBaconNumber` is proved to never
run out. -/
def bfsLoop (g : Graph) (endActor : String) :
    Nat → List String → List String → PrevMap → Int × List String
  | 0, _, _, _ => (-1, [])
  | _ + 1, _, [], _ => (-1, [])
  | fuel + 1, visited, actor :: rest, prev =>
      if actor = endActor then
        let path := (buildPath prev (prev.length + 1) (some actor) []).reverse
        (((path.length / 2 : Nat) : Int), path)
      else if actor ∈ visited then
        bfsLoop g endActor fuel visited rest prev
      else
        let s := expand (actor :: visited) actor prev rest (adjOf g actor)
        bfsLoop g endActor fuel (actor :: visited) s.2 s.1

/-- Total number of directed adjacency entries of the graph; one more than
this bounds how many dequeues the BFS can perform. -/
def totalAdjLen (g : Graph) : Nat :=
  g.foldr (fun p n => p.2.length + n) 0

/-- Translation of `calcBaconNumber` (line 121-234): the two guard clauses,
then BFS from the start actor.  The Python list `[number, path]` is modelled
as the pair `(number, path)`. -/
def calcBaconNumber (g : Graph) (startActor endActor : String) : Int × List String :=
  if lookupD g startActor = none ∨ lookupD g endActor = none then (-1, [])
  else if startActor = endActor then (0, [startActor])
  else bfsLoop g endActor (totalAdjLen g + 1) [] [startActor] [(startActor, (none, none))]

/-- Transient state of `calcAvgNumber`'s sampling loop: the running average,
the difference between the two most recent averages (`none` models the initial
`float("inf")`), the running total and the round counter.  Python float
arithmetic is modelled over `ℚ`. -/
structure EstState where
  previousAvg : ℚ
  curDiff : Option ℚ
  totalBNum : Int
  rounds : Nat
  deriving DecidableEq

/-- Initial estimator state of `calcAvgNumber` (line 279-285). -/
def initEstState : EstState :=
  { previousAvg := 0, curDiff := none, totalBNum := 0, rounds := 0 }

/-- Loop condition `curDiff > threshold` of line 288, with `none` playing
`float("inf")`. -/
def diffAbove (d : Option ℚ) (threshold : ℚ) : Prop :=
  match d with
  | none => True
  | some x => threshold < x

/-- One iteration of `calcAvgNumber`'s loop body (line 290-308) as a function
of the drawn Bacon number: increment `rounds`, and either fold a valid draw
into the running statistics or undo the round increment. -/
def avgStep (s : EstState) (bNum : Int) : EstState :=
  let rounds := s.rounds + 1
  if bNum ≠ -1 ∧ bNum ≠ 0 then
    let total := s.totalBNum + bNum
    let currentAvg : ℚ := (total : ℚ) / (rounds : ℚ)
    { previousAvg := currentAvg
      curDiff := some |currentAvg - s.previousAvg|
      totalBNum := total
      rounds := rounds }
  else
    { s with rounds := rounds - 1 }

/-- One iteration of `calcAvgNumber`'s loop body given the randomly drawn
candidate actor: the drawn Bacon number is `calcBaconNumber(startActor,
actor)[0]` (line 292-294). -/
def avgStepDraw (g : Graph) (startActor actor : String) (s : EstState) : EstState :=
  avgStep s (calcBaconNumber g startActor actor).1

/-- Directed edge of the graph witnessed by movie `m`: the pair `(b, m)` is an
entry of `a`'s adjacency dict. -/
def edgeW (g : Graph) (a b m : String) : Prop :=
  (b, m) ∈ adjOf g a

/-- Directed edge of the graph, some witness. -/
def edge (g : Graph) (a b : String) : Prop :=
  ∃ m, edgeW g a b m

/-- Walk of a given number of edges between two actors. -/
inductive Walk (g : Graph) : String → String → Nat → Prop
  | nil (a : String) : Walk g a a 0
  | cons {a b c : String} {n : Nat} : edge g a b → Walk g b c n → Walk g a c (n + 1)

/-- The shortest-path distance between two actors is `k`: some walk of `k`
edges exists and none shorter. -/
def IsDist (g : Graph) (s e : String) (k : Nat) : Prop :=
  Walk g s e k ∧ ∀ n, Walk g s e n → k ≤ n

/-- Alternating actor/movie/actor/…/actor sequence from `a` to `c` whose
movie between consecutive actors witnesses a graph edge; this is the shape
`calcBaconNumber` promises for its returned path. -/
inductive PathAlt (g : Graph) : String → List String → String → Prop
  | nil (a : String) : PathAlt g a [a] a
  | cons {a m b c : String} {p : List String} :
      edgeW g a b m → PathAlt g b p c → PathAlt g a (a :: m :: p) c

/-- Actor `y` has an entry in actor `x`'s adjacency dict. -/
def pairMem (g : Graph) (x y : String) : Prop :=
  memD (adjOf g x) y

/-- Containment of adjacency structures: every key and every directed
adjacency entry of `g` is present in `g2`. -/
def GOrd (g g2 : Graph) : Prop :=
  (∀ x, memD g x → memD g2 x) ∧ ∀ x y, pairMem g x y → pairMem g2 x y

/-- Adjacency symmetry of the built graph. -/
def Symm (g : Graph) : Prop :=
  ∀ x y, pairMem g x y ↔ pairMem g y x

/-- No actor is mapped to itself in its own adjacency dict. -/
def NoSelfLoop (g : Graph) : Prop :=
  ∀ x, ¬ pairMem g x x

/-- A record's member list is fully absorbed in `g`: every member is a key
and every ordered pair of members drawn from distinct positions has an
adjacency entry in both directions.  Processing such a record changes
nothing. -/
def RecordDone (g : Graph) : List String → Prop
  | [] => True
  | ai :: rest =>
      memD g ai ∧ (∀ aj ∈ rest, pairMem g ai aj ∧ pairMem g aj ai ∧ memD g aj) ∧
        RecordDone g rest

/-- All co-actor names occurring in some adjacency dict of `g`, deduplicated;
every actor the BFS ever discovers (beyond the start) is in this list. -/
def allCo (g : Graph) : List String :=
  (g.foldr (fun p acc => p.2.map Prod.fst ++ acc) []).dedup

/-- Number of potential BFS discoveries still missing from the backpointer
map; together with the queue length this bounds the remaining dequeues. -/
def unseen (g : Graph) (P : PrevMap) : Nat :=
  ((allCo g).toFinset.filter (fun c => lookupD P c = none)).card

/-- Loop invariant of the BFS in `calcBaconNumber`, tying the visited set
`V`, the queue `Q` and the backpointer map `P` to the graph-theoretic
distances from the start actor `s`. -/
structure BFSInv (g : Graph) (s e : String) (V Q : List String) (P : PrevMap) : Prop where
  prevStart : lookupD P s = some (none, none)
  prevWF : ∀ x pa pm, lookupD P x = some (pa, pm) → x ≠ s →
    ∃ a m k, pa = some a ∧ pm = some m ∧ edgeW g a x m ∧ memD P a ∧
      IsDist g s a k ∧ IsDist g s x (k + 1)
  qSub : ∀ x ∈ Q, memD P x
  qNodup : Q.Nodup
  qDisjV : ∀ x ∈ Q, x ∉ V
  vSub : ∀ x ∈ V, memD P x
  covered : ∀ x, memD P x → x ∈ V ∨ x ∈ Q
  closure : ∀ u ∈ V, ∀ v m, edgeW g u v m → memD P v
  eNotV : e ∉ V
  level : ∃ dlo Q1 Q2, Q = Q1 ++ Q2 ∧
    (∀ x ∈ Q1, IsDist g s x dlo) ∧ (∀ x ∈ Q2, IsDist g s x (dlo + 1)) ∧
    ∀ y k, IsDist g s y k → k < dlo → y ∈ V

/-- The graph of the spec's concrete two-movie scenario. -/
def gEx : Graph :=
  generateAdjList [] ["Movie1/Alice/Bob", "Movie2/Bob/Carol"]

/-- The graph of the spec's isolated-member scenario: `Eve` appears in a
record alone. -/
def gIso : Graph :=
  generateAdjList [] ["Movie1/Alice/Bob", "Movie2/Eve"]

/-! ### Dictionary lemmas -/

theorem lookupD_append {β : Type} (d1 d2 : List (String × β)) (x : String) :
    lookupD (d1 ++ d2) x = ((lookupD d1 x).map some).getD (lookupD d2 x) := by
  induction d1 with
  | nil => simp [lookupD]
  | cons p rest ih =>
      by_cases h : p.1 = x
      · simp [lookupD, h]
      · simpa [lookupD, h] using ih

theorem lookupD_append_left {β : Type} {d1 : List (String × β)} {x : String}
    (h : (lookupD d1 x).isSome) (d2 : List (String × β)) :
    lookupD (d1 ++ d2) x = lookupD d1 x := by
  rcases Option.isSome_iff_exists.mp h with ⟨v, hv⟩
  rw [lookupD_append, hv]; rfl

theorem lookupD_append_right {β : Type} {d1 : List (String × β)} {x : String}
    (h : lookupD d1 x = none) (d2 : List (String × β)) :
    lookupD (d1 ++ d2) x = lookupD d2 x := by
  rw [lookupD_append, h]; rfl

theorem lookupD_eq_none_iff {β : Type} (d : List (String × β)) (x : String) :
    lookupD d x = none ↔ x ∉ d.map Prod.fst := by
  induction d with
  | nil => simp [lookupD]
  | cons p rest ih =>
      by_cases h : p.1 = x
      · simp [lookupD, h]
      · simp only [lookupD, h, if_neg, not_false_iff, ih, List.map_cons,
          List.mem_cons, not_or]
        constructor
        · exact fun hx => ⟨fun h2 => h h2.symm, hx⟩
        · exact fun hx => hx.2

theorem memD_iff_mem_keys {β : Type} (d : List (String × β)) (x : String) :
    memD d x ↔ x ∈ d.map Prod.fst := by
  unfold memD
  rw [← Decidable.not_not (p := x ∈ d.map Prod.fst), ← lookupD_eq_none_iff]
  cases lookupD d x <;> simp

theorem lookupD_mem {β : Type} {d : List (String × β)} {x : String} {v : β}
    (h : lookupD d x = some v) : (x, v) ∈ d := by
  induction d with
  | nil => simp [lookupD] at h
  | cons p rest ih =>
      by_cases hp : p.1 = x
      · simp only [lookupD, hp, if_pos] at h
        cases h
        subst hp
        exact List.mem_cons_self _ _
      · simp only [lookupD, hp, if_neg, not_false_iff] at h
        exact List.mem_cons_of_mem _ (ih h)

theorem memD_append {β : Type} (d1 d2 : List (String × β)) (x : String) :
    memD (d1 ++ d2) x ↔ memD d1 x ∨ memD d2 x := by
  simp [memD_iff_mem_keys]

theorem lookupD_mapUpdate {β : Type} (d : List (String × β)) (a : String)
    (e : β → β) (x : String) :
    lookupD (d.map (fun p => if p.1 = a then (p.1, e p.2) else p)) x =
      (lookupD d x).map (fun v => if x = a then e v else v) := by
  induction d with
  | nil => rfl
  | cons p rest ih =>
      obtain ⟨k, v⟩ := p
      simp only [List.map_cons]
      by_cases hka : k = a
      · rw [if_pos (show (k, v).1 = a from hka)]
        show lookupD ((k, e v) :: _) x = _
        simp only [lookupD]
        by_cases hkx : k = x
        · have hxa : x = a := hkx.symm.trans hka
          rw [if_pos hkx, if_pos hkx]
          simp [hxa]
        · rw [if_neg hkx, if_neg hkx, ih]
      · rw [if_neg (show ¬ (k, v).1 = a from hka)]
        simp only [lookupD]
        by_cases hkx : k = x
        · have hxa : ¬ x = a := fun h2 => hka (hkx.trans h2)
          rw [if_pos hkx, if_pos hkx]
          simp [hxa]
        · rw [if_neg hkx, if_neg hkx, ih]

/-! ### Builder characterizations -/

theorem adjOf_registerActor (g : Graph) (a x : String) :
    adjOf (registerActor g a) x = adjOf g x := by
  unfold registerActor
  by_cases h : memD g a
  · rw [if_pos h]
  · rw [if_neg h]
    unfold adjOf
    cases hx : lookupD g x with
    | some adj => rw [lookupD_append_left (by rw [hx]; rfl), hx]
    | none =>
        rw [lookupD_append_right hx]
        by_cases hax : a = x
        · subst hax
          simp [lookupD]
        · simp [lookupD, hax]

theorem memD_registerActor (g : Graph) (a x : String) :
    memD (registerActor g a) x ↔ memD g x ∨ x = a := by
  unfold registerActor
  by_cases h : memD g a
  · rw [if_pos h]
    constructor
    · exact fun hx => Or.inl hx
    · rintro (hx | rfl)
      · exact hx
      · exact h
  · rw [if_neg h, memD_append]
    have hone : memD ([(a, [])] : Graph) x ↔ x = a := by
      simp [memD_iff_mem_keys, eq_comm]
    rw [hone]

theorem memD_addEdgeEntry (g : Graph) (a b m x : String) :
    memD (addEdgeEntry g a b m) x ↔ memD g x := by
  cases hga : lookupD g a with
  | none => simp only [addEdgeEntry, hga]
  | some adj =>
      simp only [addEdgeEntry, hga]
      by_cases hb : memD adj b
      · rw [if_pos hb]
      · rw [if_neg hb]
        unfold memD
        rw [lookupD_mapUpdate g a (fun v => v ++ [(b, m)]) x]
        cases lookupD g x <;> simp

theorem adjOf_addEdgeEntry (g : Graph) (a b m x : String) :
    adjOf (addEdgeEntry g a b m) x =
      if x = a ∧ memD g a ∧ ¬ memD (adjOf g a) b then adjOf g a ++ [(b, m)]
      else adjOf g x := by
  cases hga : lookupD g a with
  | none =>
      have hna : ¬ memD g a := by simp [memD, hga]
      simp only [addEdgeEntry, hga]
      rw [if_neg (by tauto)]
  | some adj =>
      have hka : memD g a := by simp [memD, hga]
      have hadj : adjOf g a = adj := by simp [adjOf, hga]
      simp only [addEdgeEntry, hga]
      by_cases hb : memD adj b
      · rw [if_pos hb, if_neg (by rw [hadj]; tauto)]
      · rw [if_neg hb]
        have hmap : adjOf (g.map (fun p => if p.1 = a then (p.1, p.2 ++ [(b, m)]) else p)) x =
            ((lookupD g x).map (fun v => if x = a then v ++ [(b, m)] else v)).getD [] := by
          unfold adjOf
          rw [lookupD_mapUpdate g a (fun v => v ++ [(b, m)]) x]
        rw [hmap]
        by_cases hx : x = a
        · subst hx
          rw [if_pos ⟨rfl, hka, by rw [hadj]; exact hb⟩, hga, hadj]
          simp
        · rw [if_neg (by tauto)]
          unfold adjOf
          cases lookupD g x with
          | none => simp
          | some w => simp [hx]

theorem lookupD_adjOf_addEdgeEntry (g : Graph) (a b m x y : String) :
    lookupD (adjOf (addEdgeEntry g a b m) x) y =
      if x = a ∧ y = b ∧ memD g a ∧ ¬ memD (adjOf g a) b then some m
      else lookupD (adjOf g x) y := by
  rw [adjOf_addEdgeEntry]
  by_cases hx : x = a ∧ memD g a ∧ ¬ memD (adjOf g a) b
  · rw [if_pos hx]
    by_cases hy : y = b
    · rw [if_pos ⟨hx.1, hy, hx.2⟩]
      have hnb : lookupD (adjOf g a) y = none := by
        rw [hy]
        exact Option.not_isSome_iff_eq_none.mp hx.2.2
      rw [lookupD_append_right hnb, hy]
      simp [lookupD]
    · rw [if_neg (by tauto)]
      cases hly : lookupD (adjOf g a) y with
      | none =>
          rw [lookupD_append_right hly, hx.1, hly]
          have hby : ¬ b = y := fun h2 => hy h2.symm
          simp [lookupD, hby]
      | some v =>
          rw [lookupD_append_left (by rw [hly]; rfl), hx.1]
  · rw [if_neg hx, if_neg (by tauto)]

theorem adjOf_addEdgeEntry_ne (g : Graph) {a x : String} (b m : String)
    (h : x ≠ a) : adjOf (addEdgeEntry g a b m) x = adjOf g x := by
  rw [adjOf_addEdgeEntry, if_neg (by tauto)]

theorem pairMem_addEdgeEntry {g : Graph} {a : String} (b m x y : String)
    (ha : memD g a) :
    pairMem (addEdgeEntry g a b m) x y ↔ pairMem g x y ∨ (x = a ∧ y = b) := by
  unfold pairMem memD
  rw [lookupD_adjOf_addEdgeEntry]
  by_cases hcond : x = a ∧ y = b ∧ memD g a ∧ ¬ memD (adjOf g a) b
  · rw [if_pos hcond]; simp [hcond.1, hcond.2.1]
  · rw [if_neg hcond]
    constructor
    · exact fun h => Or.inl h
    · rintro (h | ⟨rfl, rfl⟩)
      · exact h
      · by_cases hab : memD (adjOf g x) y
        · exact hab
        · exact absurd ⟨rfl, rfl, ha, hab⟩ hcond

/-! ### Monotonicity of the builder -/

theorem gOrd_refl (g : Graph) : GOrd g g :=
  ⟨fun _ h => h, fun _ _ h => h⟩

theorem gOrd_trans {g1 g2 g3 : Graph} (h12 : GOrd g1 g2) (h23 : GOrd g2 g3) :
    GOrd g1 g3 :=
  ⟨fun x h => h23.1 x (h12.1 x h), fun x y h => h23.2 x y (h12.2 x y h)⟩

theorem gOrd_registerActor (g : Graph) (a : String) : GOrd g (registerActor g a) := by
  constructor
  · intro x hx
    rw [memD_registerActor]
    exact Or.inl hx
  · intro x y h
    unfold pairMem at h ⊢
    rw [adjOf_registerActor]
    exact h

theorem gOrd_addEdgeEntry (g : Graph) (a b m : String) : GOrd g (addEdgeEntry g a b m) := by
  constructor
  · intro x hx
    rw [memD_addEdgeEntry]
    exact hx
  · intro x y h
    unfold pairMem memD at h ⊢
    rw [lookupD_adjOf_addEdgeEntry]
    by_cases hc : x = a ∧ y = b ∧ memD g a ∧ ¬ memD (adjOf g a) b
    · rw [if_pos hc]
      rfl
    · rw [if_neg hc]
      exact h

theorem gOrd_innerLoop (g : Graph) (m ai : String) (l : List String) :
    GOrd g (innerLoop g m ai l) := by
  induction l generalizing g with
  | nil => exact gOrd_refl g
  | cons aj rest ih =>
      show GOrd g (innerLoop (addEdgeEntry (registerActor (addEdgeEntry g ai aj m) aj) aj ai m) m ai rest)
      exact gOrd_trans
        (gOrd_trans (gOrd_trans (gOrd_addEdgeEntry g ai aj m)
          (gOrd_registerActor _ aj)) (gOrd_addEdgeEntry _ aj ai m))
        (ih _)

theorem gOrd_outerLoop (g : Graph) (m : String) (l : List String) :
    GOrd g (outerLoop g m l) := by
  induction l generalizing g with
  | nil => exact gOrd_refl g
  | cons ai rest ih =>
      show GOrd g (outerLoop (innerLoop (registerActor g ai) m ai rest) m rest)
      exact gOrd_trans
        (gOrd_trans (gOrd_registerActor g ai) (gOrd_innerLoop _ m ai rest))
        (ih _)

theorem gOrd_processLine (g : Graph) (l : String) : GOrd g (processLine g l) :=
  gOrd_outerLoop g (parseLine l).1 (parseLine l).2

theorem gOrd_generateAdjList (g : Graph) (lines : List String) :
    GOrd g (generateAdjList g lines) := by
  induction lines generalizing g with
  | nil => exact gOrd_refl g
  | cons l rest ih =>
      exact gOrd_trans (gOrd_processLine g l) (ih (processLine g l))

/-! ### Symmetry and self-loops -/

theorem pairMem_registerActor (g : Graph) (a x y : String) :
    pairMem (registerActor g a) x y ↔ pairMem g x y := by
  unfold pairMem
  rw [adjOf_registerActor]

theorem pairMem_body {g : Graph} {ai : String} (aj m : String) (hai : memD g ai)
    (x y : String) :
    pairMem (addEdgeEntry (registerActor (addEdgeEntry g ai aj m) aj) aj ai m) x y ↔
      pairMem g x y ∨ (x = ai ∧ y = aj) ∨ (x = aj ∧ y = ai) := by
  have haj : memD (registerActor (addEdgeEntry g ai aj m) aj) aj := by
    rw [memD_registerActor]
    exact Or.inr rfl
  rw [pairMem_addEdgeEntry ai m x y haj, pairMem_registerActor,
    pairMem_addEdgeEntry aj m x y hai]
  tauto

theorem symm_body {g : Graph} {ai : String} (aj m : String) (hs : Symm g)
    (hai : memD g ai) :
    Symm (addEdgeEntry (registerActor (addEdgeEntry g ai aj m) aj) aj ai m) := by
  intro x y
  rw [pairMem_body aj m hai, pairMem_body aj m hai]
  have := hs x y
  tauto

theorem symm_innerLoop {g : Graph} {ai : String} (m : String) (l : List String)
    (hs : Symm g) (hai : memD g ai) : Symm (innerLoop g m ai l) := by
  induction l generalizing g with
  | nil => exact hs
  | cons aj rest ih =>
      show Symm (innerLoop (addEdgeEntry (registerActor (addEdgeEntry g ai aj m) aj) aj ai m) m ai rest)
      refine ih (symm_body aj m hs hai) ?_
      exact (gOrd_trans (gOrd_trans (gOrd_addEdgeEntry g ai aj m)
        (gOrd_registerActor _ aj)) (gOrd_addEdgeEntry _ aj ai m)).1 ai hai

theorem symm_registerActor {g : Graph} (a : String) (hs : Symm g) :
    Symm (registerActor g a) := by
  intro x y
  rw [pairMem_registerActor, pairMem_registerActor]
  exact hs x y

theorem symm_outerLoop {g : Graph} (m : String) (l : List String) (hs : Symm g) :
    Symm (outerLoop g m l) := by
  induction l generalizing g with
  | nil => exact hs
  | cons ai rest ih =>
      show Symm (outerLoop (innerLoop (registerActor g ai) m ai rest) m rest)
      refine ih ?_
      refine symm_innerLoop m rest (symm_registerActor ai hs) ?_
      rw [memD_registerActor]
      exact Or.inr rfl

theorem symm_generateAdjList {g : Graph} (lines : List String) (hs : Symm g) :
    Symm (generateAdjList g lines) := by
  induction lines generalizing g with
  | nil => exact hs
  | cons l rest ih => exact ih (symm_outerLoop _ _ hs)

theorem symm_empty : Symm ([] : Graph) := by
  intro x y
  unfold pairMem adjOf memD lookupD
  rfl

theorem noSelfLoop_body {g : Graph} {ai aj : String} (m : String)
    (hn : NoSelfLoop g) (hai : memD g ai) (hne : ai ≠ aj) :
    NoSelfLoop (addEdgeEntry (registerActor (addEdgeEntry g ai aj m) aj) aj ai m) := by
  intro x
  rw [pairMem_body aj m hai]
  rintro (h | ⟨rfl, h2⟩ | ⟨rfl, h2⟩)
  · exact hn x h
  · exact hne h2
  · exact hne h2.symm

theorem noSelfLoop_innerLoop {g : Graph} {ai : String} (m : String)
    {l : List String} (hn : NoSelfLoop g) (hai : memD g ai) (hnl : ai ∉ l) :
    NoSelfLoop (innerLoop g m ai l) := by
  induction l generalizing g with
  | nil => exact hn
  | cons aj rest ih =>
      show NoSelfLoop (innerLoop (addEdgeEntry (registerActor (addEdgeEntry g ai aj m) aj) aj ai m) m ai rest)
      have hne : ai ≠ aj := fun h => hnl (h ▸ List.mem_cons_self aj rest)
      refine ih (noSelfLoop_body m hn hai hne) ?_ (fun h => hnl (List.mem_cons_of_mem aj h))
      exact (gOrd_trans (gOrd_trans (gOrd_addEdgeEntry g ai aj m)
        (gOrd_registerActor _ aj)) (gOrd_addEdgeEntry _ aj ai m)).1 ai hai

theorem noSelfLoop_registerActor {g : Graph} (a : String) (hn : NoSelfLoop g) :
    NoSelfLoop (registerActor g a) := by
  intro x
  rw [pairMem_registerActor]
  exact hn x

theorem noSelfLoop_outerLoop {g : Graph} (m : String) {l : List String}
    (hn : NoSelfLoop g) (hl : l.Nodup) : NoSelfLoop (outerLoop g m l) := by
  induction l generalizing g with
  | nil => exact hn
  | cons ai rest ih =>
      show NoSelfLoop (outerLoop (innerLoop (registerActor g ai) m ai rest) m rest)
      rcases List.nodup_cons.mp hl with ⟨hmem, hrest⟩
      refine ih ?_ hrest
      refine noSelfLoop_innerLoop m (noSelfLoop_registerActor ai hn) ?_ hmem
      rw [memD_registerActor]
      exact Or.inr rfl

theorem noSelfLoop_generateAdjList {g : Graph} {lines : List String}
    (hn : NoSelfLoop g) (hl : ∀ l ∈ lines, (parseLine l).2.Nodup) :
    NoSelfLoop (generateAdjList g lines) := by
  induction lines generalizing g with
  | nil => exact hn
  | cons l rest ih =>
      refine ih ?_ (fun l2 h2 => hl l2 (List.mem_cons_of_mem l h2))
      exact noSelfLoop_outerLoop _ hn (hl l (List.mem_cons_self l rest))

/-! ### Key presence and isolated members -/

theorem memD_outerLoop_of_mem {a : String} {l : List String} (g : Graph)
    (m : String) (ha : a ∈ l) : memD (outerLoop g m l) a := by
  induction l generalizing g with
  | nil => cases ha
  | cons ai rest ih =>
      show memD (outerLoop (innerLoop (registerActor g ai) m ai rest) m rest) a
      rcases List.mem_cons.mp ha with rfl | hmem
      · refine (gOrd_outerLoop _ m rest).1 a ?_
        refine (gOrd_innerLoop _ m a rest).1 a ?_
        rw [memD_registerActor]
        exact Or.inr rfl
      · exact ih _ hmem

theorem memD_generateAdjList_of_mem {a : String} {lines : List String}
    {l : String} (g : Graph) (hl : l ∈ lines) (ha : a ∈ (parseLine l).2) :
    memD (generateAdjList g lines) a := by
  induction lines generalizing g with
  | nil => cases hl
  | cons l0 rest ih =>
      rcases List.mem_cons.mp hl with rfl | hmem
      · exact (gOrd_generateAdjList _ rest).1 a (memD_outerLoop_of_mem g _ ha)
      · exact ih _ hmem

theorem adjOf_innerLoop_ne {x ai : String} (g : Graph) (m : String)
    {l : List String} (hx : x ≠ ai) (hnl : x ∉ l) :
    adjOf (innerLoop g m ai l) x = adjOf g x := by
  induction l generalizing g with
  | nil => rfl
  | cons aj rest ih =>
      show adjOf (innerLoop (addEdgeEntry (registerActor (addEdgeEntry g ai aj m) aj) aj ai m) m ai rest) x = _
      have hxj : x ≠ aj := fun h => hnl (h ▸ List.mem_cons_self aj rest)
      rw [ih _ (fun h => hnl (List.mem_cons_of_mem aj h)),
        adjOf_addEdgeEntry_ne _ _ _ hxj, adjOf_registerActor,
        adjOf_addEdgeEntry_ne _ _ _ hx]

theorem adjOf_outerLoop_ne {x : String} (g : Graph) (m : String)
    {l : List String} (hnl : x ∉ l) : adjOf (outerLoop g m l) x = adjOf g x := by
  induction l generalizing g with
  | nil => rfl
  | cons ai rest ih =>
      show adjOf (outerLoop (innerLoop (registerActor g ai) m ai rest) m rest) x = _
      have hxi : x ≠ ai := fun h => hnl (h ▸ List.mem_cons_self ai rest)
      have hrest : x ∉ rest := fun h => hnl (List.mem_cons_of_mem ai h)
      rw [ih _ hrest, adjOf_innerLoop_ne _ m hxi hrest, adjOf_registerActor]

theorem adjOf_processLine_isolated {a : String} (g : Graph) (l : String)
    (hiso : a ∈ (parseLine l).2 → (parseLine l).2 = [a]) :
    adjOf (processLine g l) a = adjOf g a := by
  by_cases hmem : a ∈ (parseLine l).2
  · unfold processLine
    rw [hiso hmem]
    show adjOf (outerLoop (innerLoop (registerActor g a) (parseLine l).1 a []) (parseLine l).1 []) a = _
    show adjOf (registerActor g a) a = _
    rw [adjOf_registerActor]
  · exact adjOf_outerLoop_ne g _ hmem

theorem adjOf_generateAdjList_isolated {a : String} (g : Graph)
    {lines : List String}
    (hiso : ∀ l ∈ lines, a ∈ (parseLine l).2 → (parseLine l).2 = [a]) :
    adjOf (generateAdjList g lines) a = adjOf g a := by
  induction lines generalizing g with
  | nil => rfl
  | cons l rest ih =>
      have h1 : adjOf (generateAdjList (processLine g l) rest) a = adjOf (processLine g l) a :=
        ih (processLine g l) (fun l2 h2 => hiso l2 (List.mem_cons_of_mem l h2))
      calc adjOf (generateAdjList g (l :: rest)) a
          = adjOf (processLine g l) a := h1
        _ = adjOf g a := adjOf_processLine_isolated g l (hiso l (List.mem_cons_self l rest))

/-! ### Idempotence -/

theorem registerActor_of_memD {g : Graph} {a : String} (h : memD g a) :
    registerActor g a = g := if_pos h

theorem addEdgeEntry_of_pairMem {g : Graph} {a b : String} (m : String)
    (h : pairMem g a b) : addEdgeEntry g a b m = g := by
  cases hga : lookupD g a with
  | none => simp only [addEdgeEntry, hga]
  | some adj =>
      have hb : memD adj b := by
        unfold pairMem adjOf at h
        rw [hga] at h
        exact h
      simp only [addEdgeEntry, hga]
      rw [if_pos hb]

theorem innerLoop_of_done {g : Graph} {ai : String} (m : String)
    {l : List String}
    (h : ∀ aj ∈ l, pairMem g ai aj ∧ pairMem g aj ai ∧ memD g aj) :
    innerLoop g m ai l = g := by
  induction l with
  | nil => rfl
  | cons aj rest ih =>
      show innerLoop (addEdgeEntry (registerActor (addEdgeEntry g ai aj m) aj) aj ai m) m ai rest = g
      rcases h aj (List.mem_cons_self aj rest) with ⟨h1, h2, h3⟩
      rw [addEdgeEntry_of_pairMem m h1, registerActor_of_memD h3,
        addEdgeEntry_of_pairMem m h2]
      exact ih (fun aj2 hj2 => h aj2 (List.mem_cons_of_mem aj hj2))

theorem outerLoop_of_recordDone {g : Graph} (m : String) {l : List String}
    (h : RecordDone g l) : outerLoop g m l = g := by
  induction l with
  | nil => rfl
  | cons ai rest ih =>
      show outerLoop (innerLoop (registerActor g ai) m ai rest) m rest = g
      rcases h with ⟨h1, h2, h3⟩
      rw [registerActor_of_memD h1, innerLoop_of_done m h2, ih h3]

theorem recordDone_mono {g g2 : Graph} {l : List String} (hord : GOrd g g2)
    (h : RecordDone g l) : RecordDone g2 l := by
  induction l with
  | nil => trivial
  | cons ai rest ih =>
      rcases h with ⟨h1, h2, h3⟩
      exact ⟨hord.1 ai h1,
        fun aj hj => ⟨hord.2 ai aj (h2 aj hj).1, hord.2 aj ai (h2 aj hj).2.1,
          hord.1 aj (h2 aj hj).2.2⟩,
        ih h3⟩

theorem innerLoop_post {g : Graph} {ai : String} (m : String) {l : List String}
    (hai : memD g ai) :
    ∀ aj ∈ l, pairMem (innerLoop g m ai l) ai aj ∧
      pairMem (innerLoop g m ai l) aj ai ∧ memD (innerLoop g m ai l) aj := by
  induction l generalizing g with
  | nil => intro aj h; cases h
  | cons aj0 rest ih =>
      intro aj hj
      show pairMem (innerLoop (addEdgeEntry (registerActor (addEdgeEntry g ai aj0 m) aj0) aj0 ai m) m ai rest) ai aj ∧ _
      have hord : GOrd g (addEdgeEntry (registerActor (addEdgeEntry g ai aj0 m) aj0) aj0 ai m) :=
        gOrd_trans (gOrd_trans (gOrd_addEdgeEntry g ai aj0 m)
          (gOrd_registerActor _ aj0)) (gOrd_addEdgeEntry _ aj0 ai m)
      have hai2 : memD (addEdgeEntry (registerActor (addEdgeEntry g ai aj0 m) aj0) aj0 ai m) ai :=
        hord.1 ai hai
      rcases List.mem_cons.mp hj with rfl | hmem
      · have hp1 : pairMem (addEdgeEntry (registerActor (addEdgeEntry g ai aj m) aj) aj ai m) ai aj := by
          rw [pairMem_body aj m hai]
          exact Or.inr (Or.inl ⟨rfl, rfl⟩)
        have hp2 : pairMem (addEdgeEntry (registerActor (addEdgeEntry g ai aj m) aj) aj ai m) aj ai := by
          rw [pairMem_body aj m hai]
          exact Or.inr (Or.inr ⟨rfl, rfl⟩)
        have hp3 : memD (addEdgeEntry (registerActor (addEdgeEntry g ai aj m) aj) aj ai m) aj := by
          rw [memD_addEdgeEntry, memD_registerActor]
          exact Or.inr rfl
        have hord2 := gOrd_innerLoop (addEdgeEntry (registerActor (addEdgeEntry g ai aj m) aj) aj ai m) m ai rest
        exact ⟨hord2.2 ai aj hp1, hord2.2 aj ai hp2, hord2.1 aj hp3⟩
      · exact ih hai2 aj hmem

theorem outerLoop_post (g : Graph) (m : String) (l : List String) :
    RecordDone (outerLoop g m l) l := by
  induction l generalizing g with
  | nil => trivial
  | cons ai rest ih =>
      show RecordDone (outerLoop (innerLoop (registerActor g ai) m ai rest) m rest) (ai :: rest)
      have hai : memD (registerActor g ai) ai := by
        rw [memD_registerActor]
        exact Or.inr rfl
      have hord := gOrd_outerLoop (innerLoop (registerActor g ai) m ai rest) m rest
      refine ⟨?_, ?_, ih _⟩
      · exact hord.1 ai ((gOrd_innerLoop _ m ai rest).1 ai hai)
      · intro aj hj
        rcases innerLoop_post m hai aj hj with ⟨h1, h2, h3⟩
        exact ⟨hord.2 ai aj h1, hord.2 aj ai h2, hord.1 aj h3⟩

theorem generateAdjList_post {lines : List String} (g : Graph) :
    ∀ l ∈ lines, RecordDone (generateAdjList g lines) (parseLine l).2 := by
  induction lines generalizing g with
  | nil => intro l h; cases h
  | cons l0 rest ih =>
      intro l hl
      rcases List.mem_cons.mp hl with rfl | hmem
      · refine recordDone_mono (gOrd_generateAdjList _ rest) ?_
        exact outerLoop_post g (parseLine l).1 (parseLine l).2
      · exact ih (processLine g l0) l hmem

theorem generateAdjList_of_done {lines : List String} {g : Graph}
    (h : ∀ l ∈ lines, RecordDone g (parseLine l).2) :
    generateAdjList g lines = g := by
  induction lines with
  | nil => rfl
  | cons l rest ih =>
      have hp : processLine g l = g :=
        outerLoop_of_recordDone _ (h l (List.mem_cons_self l rest))
      show generateAdjList (processLine g l) rest = g
      rw [hp]
      exact ih (fun l2 h2 => h l2 (List.mem_cons_of_mem l h2))

theorem generateAdjList_idem (g : Graph) (lines : List String) :
    generateAdjList (generateAdjList g lines) lines = generateAdjList g lines :=
  generateAdjList_of_done (generateAdjList_post g)

/-! ### Walks and distances -/

theorem walk_zero {g : Graph} {a b : String} (h : Walk g a b 0) : a = b := by
  cases h
  rfl

theorem walk_snoc {g : Graph} {a b c : String} {n : Nat} (h : Walk g a b n)
    (hbc : edge g b c) : Walk g a c (n + 1) := by
  induction h with
  | nil a => exact Walk.cons hbc (Walk.nil c)
  | cons hab hw ih => exact Walk.cons hab (ih hbc)

theorem walk_decompose {g : Graph} :
    ∀ {n : Nat} {a c : String}, Walk g a c (n + 1) →
      ∃ u, Walk g a u n ∧ edge g u c := by
  intro n
  induction n with
  | zero =>
      intro a c h
      cases h with
      | cons hab hw => exact ⟨a, Walk.nil a, by rwa [walk_zero hw] at hab⟩
  | succ n ih =>
      intro a c h
      cases h with
      | cons hab hw =>
          rcases ih hw with ⟨u, hu, huc⟩
          exact ⟨u, Walk.cons hab hu, huc⟩

theorem exists_isDist {g : Graph} {s x : String} (n : Nat) (hw : Walk g s x n) :
    ∃ k, IsDist g s x k := by
  induction n using Nat.strong_induction_on with
  | _ n ih =>
      by_cases hmin : ∀ m, Walk g s x m → n ≤ m
      · exact ⟨n, hw, hmin⟩
      · push_neg at hmin
        rcases hmin with ⟨m, hm, hlt⟩
        exact ih m hlt hm

theorem isDist_unique {g : Graph} {s x : String} {k k2 : Nat}
    (h1 : IsDist g s x k) (h2 : IsDist g s x k2) : k = k2 :=
  Nat.le_antisymm (h1.2 k2 h2.1) (h2.2 k h1.1)

theorem isDist_self (g : Graph) (s : String) : IsDist g s s 0 :=
  ⟨Walk.nil s, fun n _ => Nat.zero_le n⟩

theorem isDist_zero {g : Graph} {s x : String} (h : IsDist g s x 0) : x = s :=
  (walk_zero h.1).symm

theorem pred_isDist {g : Graph} {s y : String} {j : Nat}
    (h : IsDist g s y (j + 1)) : ∃ u, IsDist g s u j ∧ edge g u y := by
  rcases walk_decompose h.1 with ⟨u, hu, huy⟩
  rcases exists_isDist j hu with ⟨k, hk⟩
  have hkj : k ≤ j := hk.2 j hu
  have hne : ¬ k < j := by
    intro hlt
    have hky : Walk g s y (k + 1) := walk_snoc hk.1 huy
    have := h.2 (k + 1) hky
    omega
  have hkj2 : k = j := by omega
  exact ⟨u, hkj2 ▸ hk, huy⟩

theorem mem_prev_of_isDist {g : Graph} {s : String} {V : List String}
    {P : PrevMap} {dlo : Nat}
    (hstart : lookupD P s = some (none, none))
    (hcl : ∀ u ∈ V, ∀ v m, edgeW g u v m → memD P v)
    (hcomp : ∀ y k, IsDist g s y k → k < dlo → y ∈ V) :
    ∀ y, IsDist g s y dlo → memD P y := by
  intro y hy
  cases dlo with
  | zero =>
      rw [isDist_zero hy]
      unfold memD
      rw [hstart]
      rfl
  | succ j =>
      rcases pred_isDist hy with ⟨u, hu, m, hm⟩
      exact hcl u (hcomp u j hu (Nat.lt_succ_self j)) y m hm

/-! ### Counting co-actors -/

theorem length_foldr_co (g : Graph) :
    (g.foldr (fun p acc => p.2.map Prod.fst ++ acc) []).length = totalAdjLen g := by
  induction g with
  | nil => rfl
  | cons p rest ih =>
      simp only [List.foldr_cons, List.length_append, List.length_map, totalAdjLen] at ih ⊢
      omega

theorem mem_allCo {g : Graph} {x c mm : String} (h : edgeW g x c mm) :
    c ∈ allCo g := by
  unfold edgeW adjOf at h
  cases hga : lookupD g x with
  | none => rw [hga] at h; cases h
  | some adj =>
      rw [hga] at h
      have hxg : (x, adj) ∈ g := lookupD_mem hga
      have hc : c ∈ adj.map Prod.fst := List.mem_map_of_mem Prod.fst h
      unfold allCo
      rw [List.mem_dedup]
      clear hga
      induction g with
      | nil => cases hxg
      | cons p rest ih =>
          rcases List.mem_cons.mp hxg with rfl | hmem
          · exact List.mem_append_left _ hc
          · exact List.mem_append_right _ (ih hmem)

theorem unseen_le (g : Graph) (P : PrevMap) : unseen g P ≤ totalAdjLen g := by
  unfold unseen
  calc ((allCo g).toFinset.filter (fun c => lookupD P c = none)).card
      ≤ (allCo g).toFinset.card := Finset.card_filter_le _ _
    _ ≤ (allCo g).length := (allCo g).toFinset_card_le
    _ ≤ (g.foldr (fun p acc => p.2.map Prod.fst ++ acc) []).length :=
        (List.dedup_sublist _).length_le
    _ = totalAdjLen g := length_foldr_co g

theorem lookupD_append_eq_none_iff {β : Type} (d1 d2 : List (String × β))
    (x : String) :
    lookupD (d1 ++ d2) x = none ↔ lookupD d1 x = none ∧ lookupD d2 x = none := by
  rw [lookupD_append]
  cases lookupD d1 x <;> simp

theorem unseen_append (g : Graph) (P N : PrevMap)
    (hnodup : (N.map Prod.fst).Nodup)
    (hmem : ∀ k ∈ N.map Prod.fst, lookupD P k = none ∧ k ∈ allCo g) :
    unseen g (P ++ N) + N.length = unseen g P := by
  unfold unseen
  have hset : (allCo g).toFinset.filter (fun c => lookupD (P ++ N) c = none) =
      ((allCo g).toFinset.filter (fun c => lookupD P c = none)) \
        (N.map Prod.fst).toFinset := by
    ext c
    simp only [Finset.mem_filter, Finset.mem_sdiff, List.mem_toFinset,
      lookupD_append_eq_none_iff, lookupD_eq_none_iff, List.map_append,
      List.mem_append, not_or]
    tauto
  have hsub : (N.map Prod.fst).toFinset ⊆
      (allCo g).toFinset.filter (fun c => lookupD P c = none) := by
    intro k hk
    rw [List.mem_toFinset] at hk
    rcases hmem k hk with ⟨h1, h2⟩
    exact Finset.mem_filter.mpr ⟨List.mem_toFinset.mpr h2, h1⟩
  rw [hset, Finset.card_sdiff hsub, List.toFinset_card_of_nodup hnodup,
    List.length_map]
  have hle : (N.map Prod.fst).toFinset.card ≤
      ((allCo g).toFinset.filter (fun c => lookupD P c = none)).card :=
    Finset.card_le_card hsub
  rw [List.toFinset_card_of_nodup hnodup, List.length_map] at hle
  omega

/-! ### The BFS invariant -/

theorem level_norm {g : Graph} {s e : String} {V rest : List String} {x : String}
    {P : PrevMap} (inv : BFSInv g s e V (x :: rest) P) :
    ∃ dlo Q1 Q2, x :: rest = Q1 ++ Q2 ∧ Q1 ≠ [] ∧
      (∀ z ∈ Q1, IsDist g s z dlo) ∧ (∀ z ∈ Q2, IsDist g s z (dlo + 1)) ∧
      (∀ y k, IsDist g s y k → k < dlo → y ∈ V) := by
  rcases inv.level with ⟨dlo, Q1, Q2, hsplit, h1, h2, hcomp⟩
  cases Q1 with
  | cons q1 Q1t =>
      exact ⟨dlo, q1 :: Q1t, Q2, hsplit, by simp, h1, h2, hcomp⟩
  | nil =>
      refine ⟨dlo + 1, Q2, [], by simpa using hsplit, ?_, h2, by simp, ?_⟩
      · intro h0
        rw [h0] at hsplit
        simp at hsplit
      · intro y k hy hk
        by_cases hklt : k < dlo
        · exact hcomp y k hy hklt
        · have hkeq : k = dlo := by omega
          subst hkeq
          have hyP : memD P y :=
            mem_prev_of_isDist inv.prevStart inv.closure hcomp y hy
          rcases inv.covered y hyP with hv | hq
          · exact hv
          · rw [hsplit] at hq
            simp only [List.nil_append] at hq
            have := isDist_unique hy (h2 y hq)
            omega

/-! ### The expansion step -/

theorem expand_spec (V2 : List String) (x : String) :
    ∀ (adj : Adj) (P : PrevMap) (Q : List String),
      ∃ news : List (String × String),
        (expand V2 x P Q adj).1 =
          P ++ news.map (fun cm => (cm.1, (some x, some cm.2))) ∧
        (expand V2 x P Q adj).2 = Q ++ news.map Prod.fst ∧
        (news.map Prod.fst).Nodup ∧
        (∀ cm ∈ news, cm ∈ adj ∧ cm.1 ∉ V2 ∧ lookupD P cm.1 = none) ∧
        (∀ cm ∈ adj, cm.1 ∈ V2 ∨
          memD (P ++ news.map (fun cm => (cm.1, (some x, some cm.2)))) cm.1) := by
  intro adj
  induction adj with
  | nil =>
      intro P Q
      refine ⟨[], by simp [expand], by simp [expand], List.nodup_nil, ?_, ?_⟩
      · intro cm h; cases h
      · intro cm h; cases h
  | cons cm0 rest ih =>
      intro P Q
      obtain ⟨c, m⟩ := cm0
      by_cases hskip : c ∈ V2 ∨ memD P c
      · have he : expand V2 x P Q ((c, m) :: rest) = expand V2 x P Q rest := by
          simp only [expand]
          rw [if_pos hskip]
        rcases ih P Q with ⟨news, h1, h2, h3, h4, h5⟩
        refine ⟨news, by rw [he]; exact h1, by rw [he]; exact h2, h3, ?_, ?_⟩
        · intro cm hcm
          rcases h4 cm hcm with ⟨ha, hb, hc⟩
          exact ⟨List.mem_cons_of_mem _ ha, hb, hc⟩
        · intro cm hcm
          rcases List.mem_cons.mp hcm with rfl | hmem
          · rcases hskip with hv | hp
            · exact Or.inl hv
            · exact Or.inr ((memD_append _ _ _).mpr (Or.inl hp))
          · exact h5 cm hmem
      · push_neg at hskip
        have hcP : lookupD P c = none :=
          Option.not_isSome_iff_eq_none.mp hskip.2
        have he : expand V2 x P Q ((c, m) :: rest) =
            expand V2 x (P ++ [(c, (some x, some m))]) (Q ++ [c]) rest := by
          simp only [expand]
          rw [if_neg (by tauto)]
        rcases ih (P ++ [(c, (some x, some m))]) (Q ++ [c]) with
          ⟨news, h1, h2, h3, h4, h5⟩
        have hrest_none : ∀ cm ∈ news, lookupD P cm.1 = none := by
          intro cm hcm
          have := (h4 cm hcm).2.2
          exact ((lookupD_append_eq_none_iff P _ cm.1).mp this).1
        refine ⟨(c, m) :: news, ?_, ?_, ?_, ?_, ?_⟩
        · rw [he, h1, List.map_cons, List.append_assoc]
          rfl
        · rw [he, h2, List.map_cons, List.append_assoc]
          rfl
        · rw [List.map_cons, List.nodup_cons]
          refine ⟨?_, h3⟩
          intro hcmem
          rcases List.mem_map.mp hcmem with ⟨cm, hcm, hfst⟩
          have := (h4 cm hcm).2.2
          rw [hfst] at this
          rw [lookupD_append_eq_none_iff] at this
          have hcc : lookupD [(c, ((some x : Option String), (some m : Option String)))] c = none := this.2
          simp [lookupD] at hcc
        · intro cm hcm
          rcases List.mem_cons.mp hcm with rfl | hmem
          · exact ⟨List.mem_cons_self _ _, hskip.1, hcP⟩
          · rcases h4 cm hmem with ⟨ha, hb, _⟩
            exact ⟨List.mem_cons_of_mem _ ha, hb, hrest_none cm hmem⟩
        · intro cm hcm
          rcases List.mem_cons.mp hcm with rfl | hmem
          · refine Or.inr ?_
            unfold memD
            rw [List.map_cons,
              lookupD_append_right hcP]
            simp [lookupD]
          · rcases h5 cm hmem with hv | hp
            · exact Or.inl hv
            · refine Or.inr ?_
              rw [List.map_cons]
              rw [show P ++ ((c, ((some x : Option String), (some m : Option String))) ::
                news.map (fun cm => (cm.1, (some x, some cm.2)))) =
                (P ++ [(c, (some x, some m))]) ++
                  news.map (fun cm => (cm.1, (some x, some cm.2))) by
                rw [List.append_assoc]; rfl]
              exact hp

theorem inv_step {g : Graph} {s e : String} {V rest : List String} {x : String}
    {P : PrevMap} (inv : BFSInv g s e V (x :: rest) P) (hxe : x ≠ e) :
    BFSInv g s e (x :: V)
      (expand (x :: V) x P rest (adjOf g x)).2
      (expand (x :: V) x P rest (adjOf g x)).1 ∧
    (expand (x :: V) x P rest (adjOf g x)).2.length +
      unseen g (expand (x :: V) x P rest (adjOf g x)).1 + 1 =
      (x :: rest).length + unseen g P := by
  rcases expand_spec (x :: V) x (adjOf g x) P rest with ⟨news, hP, hQ, hnodup, hnews, hcov⟩
  rcases level_norm inv with ⟨dlo, Q1, Q2, hsplit, hQ1ne, hQ1, hQ2, hcomp⟩
  -- the dequeued actor heads the lower level
  obtain ⟨Q1t, rfl⟩ : ∃ Q1t, Q1 = x :: Q1t := by
    cases Q1 with
    | nil => exact absurd rfl hQ1ne
    | cons q1 Q1t =>
        rcases List.cons.injEq .. ▸ hsplit with ⟨h1, _⟩
        exact ⟨Q1t, by rw [List.cons_append] at hsplit; exact (List.cons.inj hsplit).1 ▸ rfl⟩
  have hrestsplit : rest = Q1t ++ Q2 := by
    rw [List.cons_append] at hsplit
    exact (List.cons.inj hsplit).2
  have hxQ : x ∈ x :: rest := List.mem_cons_self x rest
  have hxP : memD P x := inv.qSub x hxQ
  have hxV : x ∉ V := inv.qDisjV x hxQ
  have hxdist : IsDist g s x dlo := hQ1 x (List.mem_cons_self x Q1t)
  have hrestnodup : rest.Nodup := (List.nodup_cons.mp inv.qNodup).2
  have hxrest : x ∉ rest := (List.nodup_cons.mp inv.qNodup).1
  -- every newly discovered actor sits exactly one level further out
  have hdist_new : ∀ cm ∈ news, IsDist g s cm.1 (dlo + 1) := by
    intro cm hcm
    rcases hnews cm hcm with ⟨hadj, hnV, hnP⟩
    have hedge : edgeW g x cm.1 cm.2 := hadj
    have hwalk : Walk g s cm.1 (dlo + 1) := walk_snoc hxdist.1 ⟨cm.2, hedge⟩
    refine ⟨hwalk, ?_⟩
    intro n hw
    by_contra hlt
    push_neg at hlt
    rcases exists_isDist n hw with ⟨k, hk⟩
    have hkn : k ≤ n := hk.2 n hw
    by_cases hkd : k < dlo
    · exact hnV (List.mem_cons_of_mem x (hcomp cm.1 k hk hkd))
    · have hkeq : k = dlo := by omega
      subst hkeq
      have : memD P cm.1 :=
        mem_prev_of_isDist inv.prevStart inv.closure hcomp cm.1 hk
      unfold memD at this
      rw [hnP] at this
      cases this
  -- abbreviations for the appended blocks
  have hmapmap : (news.map (fun cm => (cm.1, ((some x : Option String), (some cm.2 : Option String))))).map Prod.fst = news.map Prod.fst := by
    rw [List.map_map]
    rfl
  have hkeys_dist : ∀ z ∈ news.map Prod.fst, IsDist g s z (dlo + 1) := by
    intro z hz
    rcases List.mem_map.mp hz with ⟨cm, hcm, rfl⟩
    exact hdist_new cm hcm
  have hkeys_none : ∀ z ∈ news.map Prod.fst, lookupD P z = none := by
    intro z hz
    rcases List.mem_map.mp hz with ⟨cm, hcm, rfl⟩
    exact (hnews cm hcm).2.2
  have hkeys_notxV : ∀ z ∈ news.map Prod.fst, z ∉ x :: V := by
    intro z hz
    rcases List.mem_map.mp hz with ⟨cm, hcm, rfl⟩
    exact (hnews cm hcm).2.1
  have hmemP2 : ∀ z, memD (P ++ news.map (fun cm => (cm.1, (some x, some cm.2)))) z ↔
      memD P z ∨ z ∈ news.map Prod.fst := by
    intro z
    rw [memD_append]
    constructor
    · rintro (h | h)
      · exact Or.inl h
      · refine Or.inr ?_
        rw [memD_iff_mem_keys] at h
        rw [← hmapmap]
        exact h
    · rintro (h | h)
      · exact Or.inl h
      · refine Or.inr ?_
        rw [memD_iff_mem_keys, hmapmap]
        exact h
  rw [hP, hQ]
  constructor
  · constructor
    case prevStart =>
      rw [lookupD_append_left (by rw [inv.prevStart]; rfl)]
      exact inv.prevStart
    case prevWF =>
      intro z pa pm hz hzs
      by_cases hPz : memD P z
      · rw [lookupD_append_left hPz] at hz
        rcases inv.prevWF z pa pm hz hzs with ⟨a, mm, k, h1, h2, h3, h4, h5, h6⟩
        exact ⟨a, mm, k, h1, h2, h3, (hmemP2 a).mpr (Or.inl h4), h5, h6⟩
      · have hPz2 : lookupD P z = none := Option.not_isSome_iff_eq_none.mp hPz
        rw [lookupD_append_right hPz2] at hz
        have hzmem := lookupD_mem hz
        rcases List.mem_map.mp hzmem with ⟨cm, hcm, heq⟩
        have hz1 : cm.1 = z := congrArg Prod.fst heq
        have hz2 : pa = some x ∧ pm = some cm.2 := by
          have := congrArg Prod.snd heq
          simp only [Prod.mk.injEq] at this
          exact ⟨this.1.symm, this.2.symm⟩
        refine ⟨x, cm.2, dlo, hz2.1, hz2.2, ?_, (hmemP2 x).mpr (Or.inl hxP), hxdist, ?_⟩
        · have : edgeW g x cm.1 cm.2 := (hnews cm hcm).1
          rwa [hz1] at this
        · have := hdist_new cm hcm
          rwa [hz1] at this
    case qSub =>
      intro z hzq
      rcases List.mem_append.mp hzq with hzr | hzn
      · exact (hmemP2 z).mpr (Or.inl (inv.qSub z (List.mem_cons_of_mem x hzr)))
      · exact (hmemP2 z).mpr (Or.inr hzn)
    case qNodup =>
      refine List.Nodup.append hrestnodup hnodup ?_
      intro z hzr hzn
      have h1 := hkeys_none z hzn
      have h2 := inv.qSub z (List.mem_cons_of_mem x hzr)
      unfold memD at h2
      rw [h1] at h2
      cases h2
    case qDisjV =>
      intro z hzq
      rcases List.mem_append.mp hzq with hzr | hzn
      · intro hzxv
        rcases List.mem_cons.mp hzxv with rfl | hzv
        · exact hxrest hzr
        · exact inv.qDisjV z (List.mem_cons_of_mem x hzr) hzv
      · exact hkeys_notxV z hzn
    case vSub =>
      intro z hzv
      rcases List.mem_cons.mp hzv with rfl | hzv2
      · exact (hmemP2 z).mpr (Or.inl hxP)
      · exact (hmemP2 z).mpr (Or.inl (inv.vSub z hzv2))
    case covered =>
      intro z hz
      rcases (hmemP2 z).mp hz with hzP | hzn
      · rcases inv.covered z hzP with hzv | hzq
        · exact Or.inl (List.mem_cons_of_mem x hzv)
        · rcases List.mem_cons.mp hzq with rfl | hzr
          · exact Or.inl (List.mem_cons_self z V)
          · exact Or.inr (List.mem_append_left _ hzr)
      · exact Or.inr (List.mem_append_right _ hzn)
    case closure =>
      intro u hu v m hvm
      rcases List.mem_cons.mp hu with rfl | huv
      · rcases hcov (v, m) hvm with hv | hp
        · rcases List.mem_cons.mp hv with rfl | hv2
          · exact (hmemP2 v).mpr (Or.inl hxP)
          · exact (hmemP2 v).mpr (Or.inl (inv.vSub v hv2))
        · exact hp
      · exact (hmemP2 v).mpr (Or.inl (inv.closure u huv v m hvm))
    case eNotV =>
      intro he
      rcases List.mem_cons.mp he with rfl | hev
      · exact hxe rfl
      · exact inv.eNotV hev
    case level =>
      refine ⟨dlo, Q1t, Q2 ++ news.map Prod.fst, ?_, ?_, ?_, ?_⟩
      · rw [hrestsplit, List.append_assoc]
      · intro z hz
        exact hQ1 z (List.mem_cons_of_mem x hz)
      · intro z hz
        rcases List.mem_append.mp hz with hz2 | hzn
        · exact hQ2 z hz2
        · exact hkeys_dist z hzn
      · intro y k hy hk
        exact List.mem_cons_of_mem x (hcomp y k hy hk)
  · -- fuel accounting
    have hun := unseen_append g P
      (news.map (fun cm => (cm.1, (some x, some cm.2))))
      (by rw [hmapmap]; exact hnodup)
      (by
        rw [hmapmap]
        intro k hk
        refine ⟨hkeys_none k hk, ?_⟩
        rcases List.mem_map.mp hk with ⟨cm, hcm, rfl⟩
        exact mem_allCo (hnews cm hcm).1)
    simp only [List.length_append, List.length_map, List.length_cons] at hun ⊢
    omega

/-! ### Path reconstruction -/

theorem pathAlt_snoc {g : Graph} {s a x m : String} {p : List String}
    (h : PathAlt g s p a) (hedge : edgeW g a x m) : PathAlt g s (p ++ [m, x]) x := by
  induction h with
  | nil b => exact PathAlt.cons hedge (PathAlt.nil x)
  | cons he hp ih => exact PathAlt.cons he (ih hedge)

theorem pathAlt_ne_nil {g : Graph} {a c : String} {p : List String}
    (h : PathAlt g a p c) : p ≠ [] := by
  cases h <;> simp

theorem pathAlt_head {g : Graph} {a c : String} {p : List String}
    (h : PathAlt g a p c) : p.head? = some a := by
  cases h <;> rfl

theorem pathAlt_getLast {g : Graph} {a c : String} {p : List String}
    (h : PathAlt g a p c) : p.getLast? = some c := by
  induction h with
  | nil b => rfl
  | cons he hp ih =>
      rename_i a2 m2 b2 c2 p2
      rw [List.getLast?_cons_cons]
      cases p2 with
      | nil => exact absurd rfl (pathAlt_ne_nil hp)
      | cons u rest =>
          rw [List.getLast?_cons_cons]
          exact ih

theorem buildPath_spec {g : Graph} {s : String} {P : PrevMap}
    (hstart : lookupD P s = some (none, none))
    (hwf : ∀ z pa pm, lookupD P z = some (pa, pm) → z ≠ s →
      ∃ a m k, pa = some a ∧ pm = some m ∧ edgeW g a z m ∧ memD P a ∧
        IsDist g s a k ∧ IsDist g s z (k + 1)) :
    ∀ k x, IsDist g s x k → memD P x →
      ∃ q : List String, q.length = 2 * k + 1 ∧ PathAlt g s q.reverse x ∧
        ∀ fr acc, k + 1 ≤ fr → buildPath P fr (some x) acc = acc ++ q := by
  intro k
  induction k with
  | zero =>
      intro x hx _
      have hxs : x = s := isDist_zero hx
      subst hxs
      refine ⟨[x], rfl, PathAlt.nil x, ?_⟩
      intro fr acc hfr
      cases fr with
      | zero => omega
      | succ fr2 =>
          show buildPath P (fr2 + 1) (some x) acc = acc ++ [x]
          simp only [buildPath, hstart]
  | succ k ih =>
      intro x hx hxP
      have hxs : x ≠ s := by
        intro h
        subst h
        have := isDist_unique hx (isDist_self g x)
        omega
      rcases Option.isSome_iff_exists.mp hxP with ⟨⟨pa, pm⟩, hlook⟩
      rcases hwf x pa pm hlook hxs with ⟨a, m, j, hpa, hpm, hedge, haP, hja, hjx⟩
      have hjk : j = k := by
        have := isDist_unique hx hjx
        omega
      subst hjk
      rcases ih a hja haP with ⟨q, hqlen, hqalt, hqrun⟩
      refine ⟨x :: m :: q, by simp only [List.length_cons, hqlen]; omega, ?_, ?_⟩
      · rw [show (x :: m :: q).reverse = q.reverse ++ [m, x] by simp]
        exact pathAlt_snoc hqalt hedge
      · intro fr acc hfr
        cases fr with
        | zero => omega
        | succ fr2 =>
            have hrec : buildPath P (fr2 + 1) (some x) acc =
                buildPath P fr2 pa (acc ++ [x, m]) := by
              simp only [buildPath, hlook, hpm]
            rw [hrec, hpa, hqrun fr2 (acc ++ [x, m]) (by omega)]
            simp

theorem chain_nodes {g : Graph} {s : String} {P : PrevMap}
    (hwf : ∀ z pa pm, lookupD P z = some (pa, pm) → z ≠ s →
      ∃ a m k, pa = some a ∧ pm = some m ∧ edgeW g a z m ∧ memD P a ∧
        IsDist g s a k ∧ IsDist g s z (k + 1)) :
    ∀ k x, IsDist g s x k → memD P x →
      ∃ c : List String, c.length = k + 1 ∧ c.Nodup ∧
        (∀ y ∈ c, memD P y) ∧ (∀ y ∈ c, ∃ j, j ≤ k ∧ IsDist g s y j) := by
  intro k
  induction k with
  | zero =>
      intro x hx hxP
      refine ⟨[x], rfl, List.nodup_singleton x, ?_, ?_⟩
      · intro y hy
        rcases List.mem_singleton.mp hy with rfl
        exact hxP
      · intro y hy
        rcases List.mem_singleton.mp hy with rfl
        exact ⟨0, Nat.le_refl 0, hx⟩
  | succ k ih =>
      intro x hx hxP
      have hxs : x ≠ s := by
        intro h
        subst h
        have := isDist_unique hx (isDist_self g x)
        omega
      rcases Option.isSome_iff_exists.mp hxP with ⟨⟨pa, pm⟩, hlook⟩
      rcases hwf x pa pm hlook hxs with ⟨a, m, j, hpa, hpm, hedge, haP, hja, hjx⟩
      have hjk : j = k := by
        have := isDist_unique hx hjx
        omega
      subst hjk
      rcases ih a hja haP with ⟨c, hclen, hcnodup, hcmem, hcdist⟩
      have hxc : x ∉ c := by
        intro hxin
        rcases hcdist x hxin with ⟨j2, hj2le, hj2⟩
        have := isDist_unique hx hj2
        omega
      refine ⟨x :: c, by simp [hclen], List.nodup_cons.mpr ⟨hxc, hcnodup⟩, ?_, ?_⟩
      · intro y hy
        rcases List.mem_cons.mp hy with rfl | hy2
        · exact hxP
        · exact hcmem y hy2
      · intro y hy
        rcases List.mem_cons.mp hy with rfl | hy2
        · exact ⟨_, Nat.le_refl _, hx⟩
        · rcases hcdist y hy2 with ⟨j2, hj2le, hj2⟩
          exact ⟨j2, Nat.le_succ_of_le hj2le, hj2⟩

theorem dist_lt_length {g : Graph} {s : String} {P : PrevMap}
    (hwf : ∀ z pa pm, lookupD P z = some (pa, pm) → z ≠ s →
      ∃ a m k, pa = some a ∧ pm = some m ∧ edgeW g a z m ∧ memD P a ∧
        IsDist g s a k ∧ IsDist g s z (k + 1))
    {x : String} {k : Nat} (hx : IsDist g s x k) (hxP : memD P x) :
    k < P.length := by
  rcases chain_nodes hwf k x hx hxP with ⟨c, hclen, hcnodup, hcmem, _⟩
  have hsub : c.toFinset ⊆ (P.map Prod.fst).toFinset := by
    intro y hy
    rw [List.mem_toFinset] at hy ⊢
    rw [← memD_iff_mem_keys]
    exact hcmem y hy
  have h1 : c.toFinset.card = c.length := List.toFinset_card_of_nodup hcnodup
  have h2 : c.toFinset.card ≤ (P.map Prod.fst).toFinset.card :=
    Finset.card_le_card hsub
  have h3 : (P.map Prod.fst).toFinset.card ≤ (P.map Prod.fst).length :=
    (P.map Prod.fst).toFinset_card_le
  rw [List.length_map] at h3
  omega

/-! ### The BFS loop -/

theorem reach_closed {g : Graph} {s e : String} {V : List String} {P : PrevMap}
    (inv : BFSInv g s e V [] P) : ∀ n y, Walk g s y n → y ∈ V := by
  intro n
  induction n using Nat.strong_induction_on with
  | _ n ih =>
      intro y hw
      cases n with
      | zero =>
          rw [← walk_zero hw]
          have hsP : memD P s := by
            unfold memD
            rw [inv.prevStart]
            rfl
          rcases inv.covered s hsP with hv | hq
          · exact hv
          · cases hq
      | succ n2 =>
          rcases walk_decompose hw with ⟨u, hu, m, hm⟩
          have huV : u ∈ V := ih n2 (Nat.lt_succ_self n2) u hu
          have hyP : memD P y := inv.closure u huV y m hm
          rcases inv.covered y hyP with hv | hq
          · exact hv
          · cases hq

theorem bfs_not_found {g : Graph} {s e : String} (hne : s ≠ e)
    (hnr : ∀ n, ¬ Walk g s e n) :
    ∀ (fuel : Nat) (V Q : List String) (P : PrevMap), BFSInv g s e V Q P →
      bfsLoop g e fuel V Q P = (-1, []) := by
  intro fuel
  induction fuel with
  | zero => intro V Q P _; rfl
  | succ fuel ih =>
      intro V Q P inv
      cases Q with
      | nil => rfl
      | cons x rest =>
          have hxe : x ≠ e := by
            intro h
            subst h
            have hxP := inv.qSub x (List.mem_cons_self x rest)
            rcases Option.isSome_iff_exists.mp hxP with ⟨⟨pa, pm⟩, hlook⟩
            rcases inv.prevWF x pa pm hlook (fun h2 => hne h2.symm) with
              ⟨a, m, k, _, _, _, _, _, hdist⟩
            exact hnr (k + 1) hdist.1
          have hxv : x ∉ V := inv.qDisjV x (List.mem_cons_self x rest)
          show bfsLoop g e (fuel + 1) V (x :: rest) P = (-1, [])
          simp only [bfsLoop]
          rw [if_neg hxe, if_neg hxv]
          exact ih _ _ _ (inv_step inv hxe).1

theorem bfs_found {g : Graph} {s e : String} (hne : s ≠ e) {d : Nat}
    (hd : IsDist g s e d) :
    ∀ (fuel : Nat) (V Q : List String) (P : PrevMap), BFSInv g s e V Q P →
      Q.length + unseen g P ≤ fuel →
      ∃ p, bfsLoop g e fuel V Q P = ((d : Int), p) ∧ p.length = 2 * d + 1 ∧
        PathAlt g s p e := by
  intro fuel
  induction fuel with
  | zero =>
      intro V Q P inv hfuel
      have hQ : Q = [] := by
        cases Q with
        | nil => rfl
        | cons a b => simp at hfuel
      subst hQ
      exact absurd (reach_closed inv d e hd.1) inv.eNotV
  | succ fuel ih =>
      intro V Q P inv hfuel
      cases Q with
      | nil => exact absurd (reach_closed inv d e hd.1) inv.eNotV
      | cons x rest =>
          by_cases hxe : x = e
          · subst hxe
            have hxP : memD P x := inv.qSub x (List.mem_cons_self x rest)
            have hdlt : d < P.length := dist_lt_length inv.prevWF hd hxP
            rcases buildPath_spec inv.prevStart inv.prevWF d x hd hxP with
              ⟨q, hqlen, hqalt, hqrun⟩
            refine ⟨q.reverse, ?_, ?_, hqalt⟩
            · show bfsLoop g x (fuel + 1) V (x :: rest) P = _
              simp only [bfsLoop]
              rw [if_pos trivial, hqrun (P.length + 1) [] (by omega)]
              simp only [List.nil_append, List.length_reverse, hqlen]
              have hdiv : (2 * d + 1) / 2 = d := by omega
              rw [hdiv]
            · rw [List.length_reverse]
              exact hqlen
          · have hxv : x ∉ V := inv.qDisjV x (List.mem_cons_self x rest)
            rcases inv_step inv hxe with ⟨inv2, heq⟩
            have hfuel2 : (expand (x :: V) x P rest (adjOf g x)).2.length +
                unseen g (expand (x :: V) x P rest (adjOf g x)).1 ≤ fuel := by
              simp only [List.length_cons] at heq hfuel
              omega
            rcases ih _ _ _ inv2 hfuel2 with ⟨p, hp1, hp2, hp3⟩
            refine ⟨p, ?_, hp2, hp3⟩
            simp only [bfsLoop]
            rw [if_neg hxe, if_neg hxv]
            exact hp1

/-! ### Wrapping up `calcBaconNumber` -/

theorem bfsInv_init (g : Graph) (s e : String) :
    BFSInv g s e [] [s] [(s, (none, none))] := by
  constructor
  case prevStart => simp [lookupD]
  case prevWF =>
      intro z pa pm hz hzs
      have : s = z := by
        by_contra h
        simp [lookupD, h] at hz
      exact absurd this.symm hzs
  case qSub =>
      intro z hz
      rcases List.mem_singleton.mp hz with rfl
      simp [memD, lookupD]
  case qNodup => exact List.nodup_singleton s
  case qDisjV => intro z _ h; cases h
  case vSub => intro z h; cases h
  case covered =>
      intro z hz
      refine Or.inr ?_
      unfold memD at hz
      by_cases h : s = z
      · rw [h]; exact List.mem_singleton.mpr rfl
      · simp [lookupD, h] at hz
  case closure => intro u h; cases h
  case eNotV => intro h; cases h
  case level =>
      refine ⟨0, [s], [], rfl, ?_, ?_, ?_⟩
      · intro z hz
        rcases List.mem_singleton.mp hz with rfl
        exact isDist_self g z
      · intro z hz; cases hz
      · intro y k _ hk; omega

theorem calc_found {g : Graph} {s e : String} (hne : s ≠ e) (hs : memD g s)
    (he : memD g e) {d : Nat} (hd : IsDist g s e d) :
    ∃ p, calcBaconNumber g s e = ((d : Int), p) ∧ p.length = 2 * d + 1 ∧
      PathAlt g s p e := by
  unfold calcBaconNumber
  rw [if_neg ?_, if_neg hne]
  · refine bfs_found hne hd _ [] [s] _ (bfsInv_init g s e) ?_
    have := unseen_le g [(s, (none, none))]
    simp only [List.length_singleton]
    omega
  · rintro (h | h)
    · unfold memD at hs; rw [h] at hs; cases hs
    · unfold memD at he; rw [h] at he; cases he

theorem calc_absent {g : Graph} {s e : String}
    (h : lookupD g s = none ∨ lookupD g e = none) :
    calcBaconNumber g s e = (-1, []) := by
  unfold calcBaconNumber
  rw [if_pos h]

theorem calc_not_found {g : Graph} {s e : String} (hne : s ≠ e)
    (hnr : ∀ n, ¬ Walk g s e n) : calcBaconNumber g s e = (-1, []) := by
  unfold calcBaconNumber
  by_cases habs : lookupD g s = none ∨ lookupD g e = none
  · rw [if_pos habs]
  · rw [if_neg habs, if_neg hne]
    exact bfs_not_found hne hnr _ [] [s] _ (bfsInv_init g s e)

/-! ### Example facts for the concrete scenarios -/

theorem gEx_walk2 : Walk gEx "Alice" "Carol" 2 :=
  @Walk.cons gEx "Alice" "Bob" "Carol" 1 ⟨"Movie1", by unfold edgeW; decide⟩
    (@Walk.cons gEx "Bob" "Carol" "Carol" 0 ⟨"Movie2", by unfold edgeW; decide⟩
      (Walk.nil "Carol"))

/-! ### The claims -/

/-- C1: on a built graph, for distinct member identifiers both present in the
graph, `calcBaconNumber` returns as its first component the minimum number of
edges over all paths from start to end when at least one path exists, and
returns `(-1, [])` when no path exists. -/
theorem claim_C1 (lines : List String) (s e : String)
    (hs : memD (generateAdjList [] lines) s)
    (he : memD (generateAdjList [] lines) e) (hne : s ≠ e) :
    ((∃ n, Walk (generateAdjList [] lines) s e n) →
      ∃ (d : Nat) (p : List String),
        calcBaconNumber (generateAdjList [] lines) s e = ((d : Int), p) ∧
        IsDist (generateAdjList [] lines) s e d) ∧
    ((∀ n, ¬ Walk (generateAdjList [] lines) s e n) →
      calcBaconNumber (generateAdjList [] lines) s e = (-1, [])) := by
  constructor
  · rintro ⟨n, hn⟩
    rcases exists_isDist n hn with ⟨d, hd⟩
    rcases calc_found hne hs he hd with ⟨p, hp, _, _⟩
    exact ⟨d, p, hp, hd⟩
  · intro hnr
    exact calc_not_found hne hnr

/-- Witness for C1 on the two-movie example graph: both actors present and
distinct, a walk exists, and the result carries the exact shortest distance. -/
theorem claim_C1_witness :
    memD gEx "Alice" ∧ memD gEx "Carol" ∧ "Alice" ≠ "Carol" ∧
    (∃ (d : Nat) (p : List String),
      calcBaconNumber gEx "Alice" "Carol" = ((d : Int), p) ∧
      IsDist gEx "Alice" "Carol" d) :=
  ⟨by decide, by decide, by decide,
    (claim_C1 ["Movie1/Alice/Bob", "Movie2/Bob/Carol"] "Alice" "Carol"
      (by decide) (by decide) (by decide)).1 ⟨2, gEx_walk2⟩⟩

/-- C2 counterexample: processing the single record `"M/A/A"`, whose member
list repeats the identifier `A`, creates a self-loop entry mapping `A` to
itself witnessed by `M` — refuting the claim that duplicates within one
record never create a self-loop. -/
theorem claim_C2_counterexample :
    lookupD (adjOf (generateAdjList [] ["M/A/A"]) "A") "A" = some "M" := by
  decide

/-- C2 amended: no member is ever mapped to itself in its own adjacency
provided no record's member list repeats an identifier; a duplicated
identifier within a single record's member list does create a self-loop. -/
theorem claim_C2 (lines : List String)
    (hnd : ∀ l ∈ lines, (parseLine l).2.Nodup) (a : String) :
    ¬ pairMem (generateAdjList [] lines) a a := by
  have hn : NoSelfLoop ([] : Graph) := by
    intro x h
    simp [pairMem, memD, adjOf, lookupD] at h
  exact noSelfLoop_generateAdjList hn hnd a

/-- Witness for the amended C2 on a duplicate-free input. -/
theorem claim_C2_witness :
    (∀ l ∈ ["M/A/B"], (parseLine l).2.Nodup) ∧
    ¬ pairMem (generateAdjList [] ["M/A/B"]) "A" "A" :=
  ⟨by decide, claim_C2 ["M/A/B"] (by decide) "A"⟩

/-- C3: for every graph and reachable pair of distinct present members, the
returned path has length `2*distance+1`, alternates member/group/member with
genuine edges from `A` to `B`, and starts at `A` and ends at `B`. -/
theorem claim_C3 (g : Graph) (A B : String) (hne : A ≠ B) (hA : memD g A)
    (hB : memD g B) (hreach : ∃ n, Walk g A B n) :
    ∃ (d : Nat) (p : List String),
      calcBaconNumber g A B = ((d : Int), p) ∧ p.length = 2 * d + 1 ∧
      PathAlt g A p B ∧ p.head? = some A ∧ p.getLast? = some B ∧
      IsDist g A B d := by
  rcases hreach with ⟨n, hn⟩
  rcases exists_isDist n hn with ⟨d, hd⟩
  rcases calc_found hne hA hB hd with ⟨p, hp1, hp2, hp3⟩
  exact ⟨d, p, hp1, hp2, hp3, pathAlt_head hp3, pathAlt_getLast hp3, hd⟩

/-- Witness for C3: the spec's concrete scenario, including the exact value
`(2, ["Alice", "Movie1", "Bob", "Movie2", "Carol"])`. -/
theorem claim_C3_witness :
    calcBaconNumber gEx "Alice" "Carol" =
      (2, ["Alice", "Movie1", "Bob", "Movie2", "Carol"]) ∧
    ∃ (d : Nat) (p : List String),
      calcBaconNumber gEx "Alice" "Carol" = ((d : Int), p) ∧
      p.length = 2 * d + 1 ∧ PathAlt gEx "Alice" p "Carol" ∧
      p.head? = some "Alice" ∧ p.getLast? = some "Carol" ∧
      IsDist gEx "Alice" "Carol" d :=
  ⟨by decide,
    claim_C3 gEx "Alice" "Carol" (by decide) (by decide) (by decide)
      ⟨2, gEx_walk2⟩⟩

/-- C4: for every graph produced by the builder from any input, adjacency is
symmetric: `B` has an entry in `A`'s adjacency iff `A` has one in `B`'s. -/
theorem claim_C4 (lines : List String) (A B : String) :
    pairMem (generateAdjList [] lines) A B ↔
      pairMem (generateAdjList [] lines) B A :=
  symm_generateAdjList lines symm_empty A B

/-- C5: a read/decode failure aborts construction (events after the failure
are ignored), the report carries the underlying cause inside its message, no
exception escapes (the run is a total function returning a value), and the
graph is left in exactly the partial state built from the lines consumed
before the failure. -/
theorem claim_C5 (g : Graph) (lines : List String) (msg : String)
    (trailing : List ReadEvent) :
    generateAdjListRun g
        (lines.map ReadEvent.line ++ ReadEvent.failure msg :: trailing) =
      (generateAdjList g lines, some ("An error occurred: " ++ msg)) ∧
    ∃ pre post, "An error occurred: " ++ msg = pre ++ msg ++ post := by
  constructor
  · induction lines generalizing g with
    | nil => rfl
    | cons l rest ih => exact ih (processLine g l)
  · exact ⟨"An error occurred: ", "", by simp⟩

/-- C6: if either endpoint is absent from the graph, `calcBaconNumber`
returns `(-1, [])`. -/
theorem claim_C6 (g : Graph) (s e : String)
    (h : lookupD g s = none ∨ lookupD g e = none) :
    calcBaconNumber g s e = (-1, []) :=
  calc_absent h

/-- Witness for C6: `Dave` is unknown in the example graph. -/
theorem claim_C6_witness :
    (lookupD gEx "Alice" = none ∨ lookupD gEx "Dave" = none) ∧
    calcBaconNumber gEx "Alice" "Dave" = (-1, []) :=
  ⟨Or.inr (by decide), claim_C6 gEx "Alice" "Dave" (Or.inr (by decide))⟩

/-- C7: the same-actor query on a present member returns `(0, [A])`, and the
returned distance is `0` exactly for such queries: for any identifiers the
first component is `0` iff the two identifiers are equal and present. -/
theorem claim_C7 (g : Graph) (A B : String) :
    (memD g A → calcBaconNumber g A A = (0, [A])) ∧
    ((calcBaconNumber g A B).1 = 0 ↔ A = B ∧ memD g A) := by
  have hsame : memD g A → calcBaconNumber g A A = (0, [A]) := by
    intro hA
    unfold calcBaconNumber
    have hguard : ¬ (lookupD g A = none ∨ lookupD g A = none) := by
      rintro (h | h) <;> · unfold memD at hA; rw [h] at hA; cases hA
    rw [if_neg hguard, if_pos rfl]
  refine ⟨hsame, ?_, ?_⟩
  · intro h0
    by_cases habs : lookupD g A = none ∨ lookupD g B = none
    · rw [calc_absent habs] at h0
      cases h0
    · push_neg at habs
      have hA : memD g A := by
        unfold memD
        cases hla : lookupD g A with
        | none => exact absurd hla habs.1
        | some v => rfl
      have hB : memD g B := by
        unfold memD
        cases hlb : lookupD g B with
        | none => exact absurd hlb habs.2
        | some v => rfl
      by_cases heq : A = B
      · exact ⟨heq, hA⟩
      · exfalso
        rcases Classical.em (∃ n, Walk g A B n) with hreach | hnreach
        · rcases hreach with ⟨n, hn⟩
          rcases exists_isDist n hn with ⟨d, hd⟩
          rcases calc_found heq hA hB hd with ⟨p, hp1, _, _⟩
          rw [hp1] at h0
          simp only at h0
          have hd0 : d = 0 := by exact_mod_cast h0
          subst hd0
          exact heq (isDist_zero hd).symm
        · have hnr : ∀ n, ¬ Walk g A B n := by
            intro n hn
            exact hnreach ⟨n, hn⟩
          rw [calc_not_found heq hnr] at h0
          cases h0
  · rintro ⟨rfl, hA⟩
    rw [hsame hA]

/-- Witness for C7 on the example graph. -/
theorem claim_C7_witness :
    calcBaconNumber gEx "Alice" "Alice" = (0, ["Alice"]) ∧
    ((calcBaconNumber gEx "Alice" "Bob").1 = 0 ↔
      "Alice" = "Bob" ∧ memD gEx "Alice") :=
  ⟨(claim_C7 gEx "Alice" "Bob").1 (by decide), (claim_C7 gEx "Alice" "Bob").2⟩

/-- C8: every member occurring in some processed record's member list is a
key of the built graph, and a member that never has a co-member (each record
listing it lists it alone) has an empty adjacency entry. -/
theorem claim_C8 (lines : List String) (l : String) (a : String)
    (hl : l ∈ lines) (ha : a ∈ (parseLine l).2) :
    memD (generateAdjList [] lines) a ∧
    ((∀ l2 ∈ lines, a ∈ (parseLine l2).2 → (parseLine l2).2 = [a]) →
      adjOf (generateAdjList [] lines) a = []) := by
  constructor
  · exact memD_generateAdjList_of_mem [] hl ha
  · intro hiso
    rw [adjOf_generateAdjList_isolated [] hiso]
    rfl

/-- Witness for C8: the isolated member `Eve` is a known key with empty
adjacency, and the spec's disconnection scenario returns `(-1, [])`. -/
theorem claim_C8_witness :
    ("Movie2/Eve" ∈ ["Movie1/Alice/Bob", "Movie2/Eve"]) ∧
    ("Eve" ∈ (parseLine "Movie2/Eve").2) ∧
    memD gIso "Eve" ∧ adjOf gIso "Eve" = [] ∧
    calcBaconNumber gIso "Alice" "Eve" = (-1, []) := by
  have h := claim_C8 ["Movie1/Alice/Bob", "Movie2/Eve"] "Movie2/Eve" "Eve"
    (by decide) (by decide)
  exact ⟨by decide, by decide, h.1, h.2 (by decide), by decide⟩

/-- C9: an iteration of `calcAvgNumber`'s sampling loop whose drawn Bacon
number is `-1` (unreachable) or `0` (self-match) leaves the whole estimator
state — rounds, total, previous average and current difference — unchanged. -/
theorem claim_C9 (g : Graph) (startActor actor : String) (st : EstState)
    (h : (calcBaconNumber g startActor actor).1 = -1 ∨
      (calcBaconNumber g startActor actor).1 = 0) :
    avgStepDraw g startActor actor st = st := by
  unfold avgStepDraw avgStep
  rcases h with h | h <;> rw [h] <;> simp

/-- Witness for C9: drawing the unknown actor `Dave` leaves the fresh
estimator state untouched. -/
theorem claim_C9_witness :
    ((calcBaconNumber gEx "Alice" "Dave").1 = -1 ∨
      (calcBaconNumber gEx "Alice" "Dave").1 = 0) ∧
    avgStepDraw gEx "Alice" "Dave" initEstState = initEstState :=
  ⟨Or.inl (by decide),
    claim_C9 gEx "Alice" "Dave" initEstState (Or.inl (by decide))⟩

/-- C10: graph construction is idempotent per input: running
`generateAdjList` again on the same lines over the graph already built from
them returns the identical graph — same keys, edges and witnessing labels. -/
theorem claim_C10 (lines : List String) :
    generateAdjList (generateAdjList [] lines) lines =
      generateAdjList [] lines :=
  generateAdjList_idem [] lines

end Bacon
